import Mathlib

set_option maxRecDepth 8000

namespace SI

/-!
Verification of the nutils-SI dimensional-analysis module (`src/nutils/SI.py`)
against its specification.

Modelling conventions:
* Python strings are modelled as `List Char` (`Str`).
* Python dicts are modelled as association lists `List (key × value)` in
  insertion order.
* `fractions.Fraction` is modelled by Lean's `ℚ` (both keep a reduced
  numerator/denominator pair with positive denominator).  All rational
  arithmetic performed by the model goes through kernel-computable
  reimplementations (`fracMk`, `qadd`, …) because the library operations on
  `ℚ` are `irreducible` and cannot be evaluated by `decide`.
* Raw numeric payloads (Python floats) are modelled as exact rationals; the
  numeric host library is outside the scope of the specification, so payload
  operations are either abstract parameters or exact rational arithmetic.
-/

/-- Python strings are modelled as lists of characters. -/
abbrev Str := List Char

/-! ### Kernel-computable rational arithmetic

`fracMk n d` builds the reduced rational `n / d` (and returns `0` when
`d = 0`).  It models Python's `fractions.Fraction(n, d)` constructor, which
normalizes sign and reduces by the gcd. -/

/-- Construct the reduced rational with numerator `n` and denominator `d`;
returns `0` for `d = 0`.  Models `fractions.Fraction(n, d)`. -/
def fracMk (n : ℤ) (d : ℕ) : ℚ :=
  if hd : d = 0 then 0
  else
    have hg : 0 < n.natAbs.gcd d :=
      Nat.gcd_pos_of_pos_right _ (Nat.pos_of_ne_zero hd)
    have hdd : d / n.natAbs.gcd d ≠ 0 :=
      Nat.ne_of_gt (Nat.div_pos
        (Nat.le_of_dvd (Nat.pos_of_ne_zero hd) (Nat.gcd_dvd_right _ _)) hg)
    have hco : ((n.natAbs / n.natAbs.gcd d : ℕ) : ℤ).natAbs.Coprime
        (d / n.natAbs.gcd d) := by
      rw [Int.natAbs_ofNat]; exact Nat.coprime_div_gcd_div_gcd hg
    have hconeg : (-((n.natAbs / n.natAbs.gcd d : ℕ) : ℤ)).natAbs.Coprime
        (d / n.natAbs.gcd d) := by
      rw [Int.natAbs_neg]; exact hco
    if n < 0 then
      Rat.mk' (-((n.natAbs / n.natAbs.gcd d : ℕ) : ℤ)) (d / n.natAbs.gcd d) hdd hconeg
    else
      Rat.mk' ((n.natAbs / n.natAbs.gcd d : ℕ) : ℤ) (d / n.natAbs.gcd d) hdd hco

/-- Kernel-computable addition on `ℚ` (models float/Fraction addition). -/
def qadd (a b : ℚ) : ℚ := fracMk (a.num * b.den + b.num * a.den) (a.den * b.den)

/-- Kernel-computable subtraction on `ℚ`. -/
def qsub (a b : ℚ) : ℚ := fracMk (a.num * b.den - b.num * a.den) (a.den * b.den)

/-- Kernel-computable multiplication on `ℚ`. -/
def qmul (a b : ℚ) : ℚ := fracMk (a.num * b.num) (a.den * b.den)

/-- Kernel-computable division on `ℚ` (`a / 0 = 0`). -/
def qdiv (a b : ℚ) : ℚ :=
  if b.num < 0 then fracMk (-(a.num * b.den)) (a.den * b.num.natAbs)
  else fracMk (a.num * b.den) (a.den * b.num.natAbs)

/-- Kernel-computable natural power on `ℚ`. -/
def qnpow (x : ℚ) : ℕ → ℚ
  | 0 => 1
  | k + 1 => qmul x (qnpow x k)

/-- Kernel-computable reciprocal on `ℚ` (`qinv 0 = 0`). -/
def qinv (a : ℚ) : ℚ :=
  if a.num < 0 then fracMk (-(a.den : ℤ)) a.num.natAbs
  else fracMk (a.den : ℤ) a.num.natAbs

/-- Kernel-computable integer power on `ℚ`. -/
def qzpow (x : ℚ) (n : ℤ) : ℚ :=
  if n < 0 then qinv (qnpow x n.natAbs) else qnpow x n.natAbs

/-- Power of ten, used for metric prefix factors and decimal literals. -/
def tenPow : ℕ → ℕ
  | 0 => 1
  | k + 1 => 10 * tenPow k

/-! ### Decimal digit strings -/

/-- The character for digit `d` (`0 ↦ '0'`, …); models Python's decimal
rendering of a digit. -/
def digitChar10 (d : ℕ) : Char := Char.ofNat (48 + d)

/-- Numeric value of a digit character. -/
def digitVal (c : Char) : ℕ := c.toNat - 48

/-- Fuel-driven decimal rendering (structural recursion so that the kernel
can evaluate it); `fuel` must exceed the number rendered. -/
def natDigitsAux : ℕ → ℕ → Str
  | 0, _ => []
  | fuel + 1, n =>
    if n < 10 then [digitChar10 n]
    else natDigitsAux fuel (n / 10) ++ [digitChar10 (n % 10)]

/-- Decimal rendering of a natural number, most significant digit first;
models Python's `str` on a nonnegative `int`. -/
def natDigits (n : ℕ) : Str := natDigitsAux (n + 1) n

/-- Value of a digit string (fold of digits, most significant first). -/
def digitsToNat (s : Str) : ℕ := s.foldl (fun a c => 10 * a + digitVal c) 0

/-! ### Power maps

A power map models a Python dict from base symbol to rational exponent,
kept in insertion order.  Two dicts are equal iff their binding lists are
permutations of each other (keys of a dict are unique). -/

/-- Mapping from base symbol to exponent (a Python dict, in insertion order). -/
abbrev PowerMap := List (Str × ℚ)

/-- Models `{base: power for base, power in arg.items() if power}` in
`Dimension.from_powers`. -/
def dropZeros (m : PowerMap) : PowerMap := m.filter (fun e => decide (e.2 ≠ 0))

/-- Dict lookup: value bound to `key`, first binding wins. -/
def alookup {α : Type} : List (Str × α) → Str → Option α
  | [], _ => none
  | (k, v) :: t, key => if k = key then some v else alookup t key

/-- Exponent of `k` in a power map, `0` when absent: models `a.get(base, 0)`. -/
def getPow (m : PowerMap) (k : Str) : ℚ := (alookup m k).getD 0

/-- Ascending lexicographic order on the reversed entry `(power, symbol)`;
this is the key `item[::-1]` used by `from_powers` for sorting. -/
def entryLE (a b : Str × ℚ) : Prop := a.2 < b.2 ∨ (a.2 = b.2 ∧ a.1 ≤ b.1)

instance : DecidableRel entryLE := fun a b =>
  decidable_of_iff (a.2 < b.2 ∨ (a.2 = b.2 ∧ a.1 ≤ b.1)) Iff.rfl

/-- The descending order used by the `reverse=True` sort in `from_powers`. -/
def entryGE (a b : Str × ℚ) : Prop := entryLE b a

instance : DecidableRel entryGE := fun a b => inferInstanceAs (Decidable (entryLE b a))

instance entryLE.total : IsTotal (Str × ℚ) entryLE :=
  ⟨fun a b => by
    rcases lt_trichotomy a.2 b.2 with h | h | h
    · exact Or.inl (Or.inl h)
    · rcases le_total a.1 b.1 with hs | hs
      · exact Or.inl (Or.inr ⟨h, hs⟩)
      · exact Or.inr (Or.inr ⟨h.symm, hs⟩)
    · exact Or.inr (Or.inl h)⟩

instance entryLE.trans : IsTrans (Str × ℚ) entryLE :=
  ⟨fun a b c h1 h2 => by
    rcases h1 with h1 | ⟨h1, h1s⟩ <;> rcases h2 with h2 | ⟨h2, h2s⟩
    · exact Or.inl (h1.trans h2)
    · exact Or.inl (h2 ▸ h1)
    · exact Or.inl (h1 ▸ h2)
    · exact Or.inr ⟨h1.trans h2, h1s.trans h2s⟩⟩

instance entryLE.antisymm : IsAntisymm (Str × ℚ) entryLE :=
  ⟨fun a b h1 h2 => by
    rcases h1 with h1 | ⟨h1, h1s⟩
    · rcases h2 with h2 | ⟨h2, _⟩
      · exact absurd h2 (lt_asymm h1)
      · exact absurd h1 (h2 ▸ lt_irrefl _)
    · rcases h2 with h2 | ⟨_, h2s⟩
      · exact absurd h2 (h1 ▸ lt_irrefl _)
      · exact Prod.ext (le_antisymm h1s h2s) h1⟩

instance entryGE.total : IsTotal (Str × ℚ) entryGE :=
  ⟨fun a b => IsTotal.total (r := entryLE) b a⟩

instance entryGE.trans : IsTrans (Str × ℚ) entryGE :=
  ⟨fun _ _ _ h1 h2 => IsTrans.trans (r := entryLE) _ _ _ h2 h1⟩

instance entryGE.antisymm : IsAntisymm (Str × ℚ) entryGE :=
  ⟨fun _ _ h1 h2 => IsAntisymm.antisymm (r := entryLE) _ _ h2 h1⟩

/-- Models `sorted(powers.items(), key=lambda item: item[::-1], reverse=True)`:
stable sort by descending `(power, symbol)`. -/
def sortEntries (m : PowerMap) : PowerMap := List.insertionSort entryGE m

/-! ### Canonical dimension names -/

/-- One token of the canonical name built by `from_powers`:
`('*' if power > 0 else '/') + base + numerator? + ('_' + denominator)?`,
where a numerator of magnitude 1 and a denominator of 1 are omitted. -/
def token (b : Str) (p : ℚ) : Str :=
  (if 0 < p then ['*'] else ['/']) ++ b
    ++ (if p.num.natAbs ≠ 1 then natDigits p.num.natAbs else [])
    ++ (if p.den ≠ 1 then '_' :: natDigits p.den else [])

/-- Python's `lstrip('*')`. -/
def dropStars (s : Str) : Str := s.dropWhile (fun c => decide (c = '*'))

/-- Token of one sorted entry. -/
def tok (e : Str × ℚ) : Str := token e.1 e.2

/-- The canonical name computed by `from_powers` from the zero-dropped power
map: concatenated tokens over the sorted entries, leading `'*'` stripped. -/
def dimName (powers : PowerMap) : Str :=
  dropStars ((sortEntries powers).map tok).flatten

/-! ### The dimension registry -/

/-- The `Dimension.__cache` of created subtypes: canonical name ↦ the
`__powers` dict stored on the cached class, in insertion order. -/
structure Registry where
  cache : List (Str × PowerMap)

/-- A dimension identity (one created `Quantity` subclass).  Two identities
are the same Python class object iff they are equal as `DimId` values (the
cache is keyed by name, and the stored powers are fixed at creation). -/
structure DimId where
  name : Str
  powers : PowerMap
deriving DecidableEq

/-- Models `Dimension.from_powers`: drop zero exponents, build the canonical
name, and return the cached identity for that name (creating and caching a
new identity on a cache miss). -/
def from_powers (reg : Registry) (arg : PowerMap) : DimId × Registry :=
  let powers := dropZeros arg
  let name := dimName powers
  match alookup reg.cache name with
  | some ps => (⟨name, ps⟩, reg)
  | none => (⟨name, powers⟩, ⟨reg.cache ++ [(name, powers)]⟩)

/-- Validity of a base symbol as enforced by `Dimension.create`: `create`
accepts a string iff the base of the first factor of `_split_factors` equals
the whole string, which holds iff the string is nonempty, contains neither
`'*'` nor `'/'`, and does not end in a digit or an underscore. -/
def validBase (b : Str) : Bool :=
  match b.getLast? with
  | none => false
  | some c =>
    b.all (fun ch => decide (ch ≠ '*') && decide (ch ≠ '/')) && !(c.isDigit || c = '_')

/-- All base symbols of a power map are valid root symbols. -/
def allValidBases (m : PowerMap) : Bool := m.all (fun e => validBase e.1)

/-! ### Injectivity of the canonical name

The canonical name is injective on zero-dropped power maps whose base
symbols are valid root symbols: each token starts with `'*'` or `'/'`, the
remainder of a token contains neither, the base can be recovered by
stripping trailing digit/underscore characters, and the exponent can be
recovered from the digit groups. -/

/-- Digit or underscore: the characters that `rstrip('0123456789_')` strips. -/
def isDU (c : Char) : Bool := c.isDigit || c = '_'

/-- The sign character of a token. -/
def signChar (p : ℚ) : Char := if 0 < p then '*' else '/'

/-- The numerator part of a token (omitted when the magnitude is 1). -/
def numPart (p : ℚ) : Str := if p.num.natAbs ≠ 1 then natDigits p.num.natAbs else []

/-- The denominator part of a token (omitted when the denominator is 1). -/
def denPart (p : ℚ) : Str := if p.den ≠ 1 then '_' :: natDigits p.den else []

/-- Entry lists are well-formed when every base is valid and every
exponent nonzero (as in a zero-dropped map built from root symbols). -/
def WFEntries (l : PowerMap) : Prop := ∀ e ∈ l, validBase e.1 = true ∧ e.2 ≠ 0

/-- The sort order stated by the specification sentence of claim C2:
by symbol, then by descending power. -/
def symbolThenDescPower (a b : Str × ℚ) : Prop := a.1 < b.1 ∨ (a.1 = b.1 ∧ b.2 ≤ a.2)

instance : DecidableRel symbolThenDescPower := fun a b =>
  decidable_of_iff (a.1 < b.1 ∨ (a.1 = b.1 ∧ b.2 ≤ a.2)) Iff.rfl

/-- The name construction described by claim C2's specification sentence,
taken literally: entries sorted by (symbol, then descending power), tokens
concatenated, nothing stripped. -/
def specNameC2 (powers : PowerMap) : Str :=
  ((List.insertionSort symbolThenDescPower powers).map tok).flatten

/-- The amended construction: sort ascending by `(power, symbol)` and
reverse (Python's `reverse=True` over the key `item[::-1]`), concatenate the
tokens, and strip the leading `'*'`. -/
def specNameDescending (powers : PowerMap) : Str :=
  dropStars (((List.insertionSort entryLE powers).reverse).map tok).flatten

/-! ### Quantity values and the dimension algebra

A runtime value is either a bare Python float (dimensionless results are
unwrapped) or a `Quantity` instance.  A dimension class is identified by
its canonical powers: zero exponents dropped and entries in the canonical
sort order, which is in bijection with the class's canonical name. -/

/-- Canonical powers of a dimension class (sorted, zero-dropped). -/
def canonPowers (m : PowerMap) : PowerMap := sortEntries (dropZeros m)

/-- A runtime value: a bare float, or a `Quantity` instance of the
dimension class with the given canonical powers. -/
inductive Value where
  | raw (x : ℚ)
  | qty (d : PowerMap) (x : ℚ)
deriving DecidableEq

/-- `Dimension.__wrap__`: wrap the payload in the class unless the class is
dimensionless, in which case the payload is returned bare. -/
def wrap (d : PowerMap) (x : ℚ) : Value :=
  if d.isEmpty then .raw x else .qty d x

/-- The Python class of a value as the dispatcher sees it: `none` for
`float`, `some` canonical powers for a dimension class.  Two values have
the same class iff `vclass` agrees. -/
def vclass : Value → Option PowerMap
  | .raw _ => none
  | .qty d _ => some d

/-- Raw payload (`arg.__value if isinstance(arg, Quantity) else arg`). -/
def vraw : Value → ℚ
  | .raw x => x
  | .qty _ x => x

/-- Dimension of a value; a bare float is dimensionless. -/
def vdim : Value → PowerMap
  | .raw _ => []
  | .qty d _ => d

/-- `Dimension._binop`: pointwise combination over the union of the keys
(absent key = exponent 0), canonicalized by `from_powers`. -/
def binopPowers (f : ℚ → ℚ → ℚ) (a b : PowerMap) : PowerMap :=
  canonPowers ((a.map Prod.fst ++ b.map Prod.fst).dedup.map
    (fun k => (k, f (getPow a k) (getPow b k))))

/-- `Dimension.__mul__` on two dimension classes (pointwise sum). -/
def dimMulD (a b : PowerMap) : PowerMap := binopPowers qadd a b

/-- `Dimension.__truediv__` on two dimension classes (pointwise difference). -/
def dimDivD (a b : PowerMap) : PowerMap := binopPowers qsub a b

/-- `Dimension.__pow__`: every exponent multiplied by the rational `e`,
canonicalized by `from_powers`. -/
def dimPow (a : PowerMap) (e : ℚ) : PowerMap :=
  canonPowers (a.map (fun p => (p.1, qmul p.2 e)))

/-- `type(a) * type(b)` as computed by the dispatcher: `Dimension.__mul__`
returns the left class unchanged when the right operand is not a dimension
class, and `Dimension.__rmul__` returns the right class when the left
operand is `float`.  `float * float` is not a dimension class, so the
dispatcher's `isinstance(Dim, Dimension)` assertion would fail (`none`). -/
def classMul : Option PowerMap → Option PowerMap → Option PowerMap
  | some d, some e => some (dimMulD d e)
  | some d, none => some d
  | none, some e => some e
  | none, none => none

/-- `type(a) / type(b)`: `Dimension.__truediv__` returns the left class
unchanged for a non-dimension right operand, and `Dimension.__rtruediv__`
returns `cls ** -1`. -/
def classDiv : Option PowerMap → Option PowerMap → Option PowerMap
  | some d, some e => some (dimDivD d e)
  | some d, none => some d
  | none, some e => some (dimPow e (fracMk (-1) 1))
  | none, none => none

/-- Host-library power with a rational exponent, exact for integral
exponents.  Non-integral powers of the float payload are outside the
modelled fragment (the host's floating-point `**`) and are mapped to 0. -/
def qpowQ (x : ℚ) (e : ℚ) : ℚ := if e.den = 1 then qzpow x e.num else 0

/-- Multiplication of runtime values: plain float multiplication when both
are bare, otherwise `Quantity._dispatch(mul, a, b)`, i.e.
`(type(a) * type(b)).__wrap__(raw_a * raw_b)`, case by case. -/
def vmul : Value → Value → Value
  | .raw x, .raw y => .raw (qmul x y)
  | .qty d x, .raw y => wrap d (qmul x y)
  | .raw x, .qty e y => wrap e (qmul x y)
  | .qty d x, .qty e y => wrap (dimMulD d e) (qmul x y)

/-- Division of runtime values (`truediv` dispatch). -/
def vdiv : Value → Value → Value
  | .raw x, .raw y => .raw (qdiv x y)
  | .qty d x, .raw y => wrap d (qdiv x y)
  | .raw x, .qty e y => wrap (dimPow e (fracMk (-1) 1)) (qdiv x y)
  | .qty d x, .qty e y => wrap (dimDivD d e) (qdiv x y)

/-- Power of a runtime value by a rational exponent (`pow` dispatch:
`Dim = type(args[0]) ** args[1]`). -/
def vpow : Value → ℚ → Value
  | .raw x, e => .raw (qpowQ x e)
  | .qty d x, e => wrap (dimPow d e) (qpowQ x e)

/-- `Quantity._dispatch` for the additive family (`add`, `sub`, `subtract`,
`hypot`): `Dim = type(args[0])`; a second operand of a different class
raises `TypeError` (`none`); otherwise the host result on the raw payloads
is wrapped in `Dim`.  When `args[0]` is a bare float, `Dim` is `float` and
the dispatcher's `isinstance(Dim, Dimension)` assertion fails (`none`).
The host operation is the abstract parameter `op`. -/
def dispatchAdditive (op : ℚ → ℚ → ℚ) (a b : Value) : Option Value :=
  match vclass a with
  | none => none
  | some d =>
    if vclass b = some d then some (wrap d (op (vraw a) (vraw b))) else none

/-- `Quantity._dispatch` for comparisons (`lt`, `le`, `eq`, `ne`, `gt`,
`ge`, `isfinite`, `isnan`, …): every operand after the first must have the
first operand's class, the result dimension is `from_powers({})`, and
`__wrap__` on the dimensionless class returns the bare host result.  The
host operation `op` receives the raw payloads. -/
def dispatchComparison (op : List ℚ → ℚ) (a : Value) (rest : List Value) :
    Option Value :=
  if rest.all (fun q => decide (vclass q = vclass a))
  then some (wrap (dropZeros []) (op ((a :: rest).map vraw)))
  else none

/-! ### The unit registry -/

/-- The metric prefix table of `Units` (19 prefixes — note the absence of
deka `da`).  The float factors `1e24 … 1e-24` are modelled as exact powers
of ten. -/
def prefixTable : List (Str × ℚ) :=
  [(['Y'], fracMk (tenPow 24) 1), (['Z'], fracMk (tenPow 21) 1),
   (['E'], fracMk (tenPow 18) 1), (['P'], fracMk (tenPow 15) 1),
   (['T'], fracMk (tenPow 12) 1), (['G'], fracMk (tenPow 9) 1),
   (['M'], fracMk (tenPow 6) 1), (['k'], fracMk (tenPow 3) 1),
   (['h'], fracMk (tenPow 2) 1), (['d'], fracMk 1 (tenPow 1)),
   (['c'], fracMk 1 (tenPow 2)), (['m'], fracMk 1 (tenPow 3)),
   (['μ'], fracMk 1 (tenPow 6)), (['n'], fracMk 1 (tenPow 9)),
   (['p'], fracMk 1 (tenPow 12)), (['f'], fracMk 1 (tenPow 15)),
   (['a'], fracMk 1 (tenPow 18)), (['z'], fracMk 1 (tenPow 21)),
   (['y'], fracMk 1 (tenPow 24))]

/-- The units dict: symbol ↦ reference value, in insertion order. -/
abbrev UnitsMap := List (Str × Value)

/-- `Units.__setattr__`: define a unit.  Result `(false, um)` models an
exception raised before any mutation (`TypeError` for a non-`Quantity`
value, `ValueError` for a redefinition or a prefix collision) with the dict
unchanged; `(true, um')` appends the literal entry and the 19 prefixed
entries.  A string value would first go through `parse` in the caller. -/
def setattrUnits (um : UnitsMap) (name : Str) (value : Value) : Bool × UnitsMap :=
  match value with
  | .raw _ => (false, um)
  | .qty .. =>
    if (alookup um name).isSome then (false, um)
    else
      let scaled := prefixTable.map (fun pf => (pf.1 ++ name, vmul value (.raw pf.2)))
      if scaled.any (fun e => (alookup um e.1).isSome) then (false, um)
      else (true, um ++ (name, value) :: scaled)

/-! ### The expression parser -/

/-- Characters stripped by `lstrip('+-0123456789.')`. -/
def isCoeffChar (c : Char) : Bool := c.isDigit || c = '+' || c = '-' || c = '.'

/-- Python's `rstrip('0123456789_')`. -/
def rstripDU (s : Str) : Str := (s.reverse.dropWhile isDU).reverse

/-- No two adjacent underscores (Python `int()` rejects `"2__3"`). -/
def noDoubleUnderscore : Str → Bool
  | [] => true
  | [_] => true
  | a :: b :: t => !(a = '_' && b = '_') && noDoubleUnderscore (b :: t)

/-- Python's `int()` on the digit/underscore strings cut out by
`_split_factors`: digit groups separated by single underscores, no leading
or trailing underscore.  `none` models `ValueError`. -/
def parsePyInt (s : Str) : Option ℕ :=
  if s.isEmpty then none
  else if !(s.all isDU) then none
  else if s.head? = some '_' then none
  else if s.getLast? = some '_' then none
  else if !(noDoubleUnderscore s) then none
  else some (digitsToNat (s.filter (fun c => c.isDigit)))

/-- Parse one nonempty factor of `_split_factors`: `base` is the factor
with the trailing `numerator['_'denominator]` suffix stripped, and the
power is `Fraction(int(numer or 1), int(denom or 1))`.  `none` models an
`int()` `ValueError` or a `Fraction(n, 0)` `ZeroDivisionError`. -/
def parseFactor (factor : Str) : Option (Str × ℚ) :=
  let base := rstripDU factor
  let suffix := factor.drop base.length
  let numer := suffix.takeWhile (fun c => decide (c ≠ '_'))
  let denom := (suffix.dropWhile (fun c => decide (c ≠ '_'))).drop 1
  do
    let n ← if numer.isEmpty then some 1 else parsePyInt numer
    let d ← if denom.isEmpty then some 1 else parsePyInt denom
    if d = 0 then none else some (base, fracMk (n : ℤ) d)

/-- `_split_factors`: split on `'*'`, then each `*`-segment on `'/'`; the
first `/`-segment of a `*`-segment is a numerator factor, the later ones
denominators; empty factors are skipped (the flag still advances). -/
def split_factors (s : Str) : Option (List (Str × ℚ × Bool)) :=
  (((s.splitOn '*').map (fun part =>
      match part.splitOn '/' with
      | [] => ([] : List (Str × Bool))
      | f :: fs => (f, true) :: fs.map (fun g => (g, false)))).flatten.filter
    (fun fb => !fb.1.isEmpty)).mapM
    (fun fb => (parseFactor fb.1).map (fun bp => (bp.1, bp.2, fb.2)))

/-- `float()` on a string drawn from the characters `+-0123456789.`:
optional single sign, digits with at most one decimal point, at least one
digit.  The float literal is modelled as the exact decimal rational.
`none` models `ValueError`. -/
def parseDecimal (s : Str) : Option ℚ :=
  match s with
  | [] => none
  | c :: t =>
    let u : Str := if c = '-' || c = '+' then t else c :: t
    let ip := u.takeWhile (fun ch => ch.isDigit)
    match u.dropWhile (fun ch => ch.isDigit) with
    | [] =>
      if ip.isEmpty then none
      else some (fracMk ((if c = '-' then -1 else 1) * (digitsToNat ip : ℤ)) 1)
    | '.' :: fp =>
      if fp.all (fun ch => ch.isDigit) && !(ip.isEmpty && fp.isEmpty)
      then some (fracMk ((if c = '-' then -1 else 1) *
          ((digitsToNat ip * tenPow fp.length + digitsToNat fp : ℕ) : ℤ))
        (tenPow fp.length))
      else none
    | _ => none

/-- Split off and parse a leading `float` coefficient:
`float(expr[:len(expr)-len(u)] or 1)` with `u = expr.lstrip('+-0123456789.')`.
Used both for the whole string and for each factor. -/
def leadingCoeff (expr : Str) : Option ℚ :=
  let u := expr.dropWhile isCoeffChar
  let coeffStr := expr.take (expr.length - u.length)
  if coeffStr.isEmpty then some 1 else parseDecimal coeffStr

/-- One iteration of the `parse` loop: strip the factor's own leading
coefficient, resolve the unit symbol in the registry, build
`v = float(coeff or 1) * units[u] ** power`, and multiply or divide the
accumulator by `v` according to the numerator flag.  `none` models the
`ValueError` raised for an invalid (sub)expression. -/
def parseStep (um : UnitsMap) (q : Value) (fpb : Str × ℚ × Bool) : Option Value := do
  let coeff ← leadingCoeff fpb.1
  let uval ← alookup um (fpb.1.dropWhile isCoeffChar)
  let v := vmul (.raw coeff) (vpow uval fpb.2.1)
  pure (if fpb.2.2 then vmul q v else vdiv q v)

/-- The body of `parse` up to (and excluding) the final provenance
assignment: the leading coefficient (default 1) starts a dimensionless
accumulator, and the factors are folded in order with `parseStep`. -/
def parseFold (um : UnitsMap) (s : Str) : Option Value := do
  let c ← leadingCoeff s
  let factors ← split_factors (s.dropWhile isCoeffChar)
  factors.foldlM (parseStep um) (Value.raw c)

/-- `parse`: the factor fold followed by the provenance assignment
`q._parsed_from = s`.  The assignment succeeds only when `q` is a
`Quantity` instance; a bare float (a dimensionless result) cannot take the
attribute and the uncaught `AttributeError` propagates (`none`). -/
def parse (um : UnitsMap) (s : Str) : Option Value :=
  match parseFold um s with
  | some (.qty d x) => some (.qty d x)
  | _ => none

/-! ### The SI module initialization (base units) -/

/-- `Dimension.create('T')` … : the seven root dimensions, as power maps. -/
def TimeD : PowerMap := [(['T'], 1)]

/-- Root dimension of `Dimension.create('L')`. -/
def LengthD : PowerMap := [(['L'], 1)]

/-- Root dimension of `Dimension.create('M')`. -/
def MassD : PowerMap := [(['M'], 1)]

/-- Root dimension of `Dimension.create('I')`. -/
def CurrentD : PowerMap := [(['I'], 1)]

/-- Root dimension of `Dimension.create('θ')`. -/
def TemperatureD : PowerMap := [(['θ'], 1)]

/-- Root dimension of `Dimension.create('N')`. -/
def AmountD : PowerMap := [(['N'], 1)]

/-- Root dimension of `Dimension.create('J')`. -/
def LuminousD : PowerMap := [(['J'], 1)]

/-- `cls.reference_quantity = cls.__wrap__(1.)`. -/
def reference_quantity (d : PowerMap) : Value := wrap (canonPowers d) 1

/-- The units registry after the seven SI base unit assignments
(`units.m`, `units.s`, `units.g`, `units.A`, `units.K`, `units.mol`,
`units.cd`) of the module initialization. -/
def unitsSI7 : UnitsMap :=
  [((['m'] : Str), reference_quantity LengthD),
   (['s'], reference_quantity TimeD),
   (['g'], vmul (reference_quantity MassD) (.raw (fracMk 1 1000))),
   (['A'], reference_quantity CurrentD),
   (['K'], reference_quantity TemperatureD),
   (['m', 'o', 'l'], reference_quantity AmountD),
   (['c', 'd'], reference_quantity LuminousD)].foldl
    (fun um nv => (setattrUnits um nv.1 nv.2).2) []

/-! ### Claim C3: the fold described by the specification -/

/-- The value of one factor as claim C3 describes it: the factor's
coefficient times the registry value raised to the factor's exponent. -/
def specFactorValue (um : UnitsMap) (expr : Str) (power : ℚ) : Option Value :=
  match leadingCoeff expr, alookup um (expr.dropWhile isCoeffChar) with
  | some c, some uval => some (vmul (.raw c) (vpow uval power))
  | _, _ => none

/-- The fold described by claim C3: for each factor in order, multiply
(numerator) or divide (denominator) the accumulator by the factor value. -/
def specFold (um : UnitsMap) : List (Str × ℚ × Bool) → Value → Option Value
  | [], acc => some acc
  | fpb :: rest, acc =>
    match specFactorValue um fpb.1 fpb.2.1 with
    | none => none
    | some v => specFold um rest (if fpb.2.2 then vmul acc v else vdiv acc v)

/-- The parse algorithm as claim C3 states it: start from the leading
coefficient (1 when absent) as a dimensionless accumulator and fold the
factors in order. -/
def specParse (um : UnitsMap) (s : Str) : Option Value :=
  match leadingCoeff s, split_factors (s.dropWhile isCoeffChar) with
  | some c, some factors => specFold um factors (Value.raw c)
  | _, _ => none

/-- The expansion a successful definition appends, as enumerated by the
amended claim: the literal entry is followed by exactly 19 metric-prefixed
entries, `Y,Z,E,P,T,G,M,k,h,d,c,m,μ,n,p,f,a,z,y`, spanning the scale
factors from 1e24 down to 1e-24, each mapping the prefixed symbol to the
base value scaled by the prefix factor. -/
def specPrefixExpansion (n : Str) (v : Value) : List (Str × Value) :=
  [(['Y'] ++ n, vmul v (.raw (fracMk (tenPow 24) 1))),
   (['Z'] ++ n, vmul v (.raw (fracMk (tenPow 21) 1))),
   (['E'] ++ n, vmul v (.raw (fracMk (tenPow 18) 1))),
   (['P'] ++ n, vmul v (.raw (fracMk (tenPow 15) 1))),
   (['T'] ++ n, vmul v (.raw (fracMk (tenPow 12) 1))),
   (['G'] ++ n, vmul v (.raw (fracMk (tenPow 9) 1))),
   (['M'] ++ n, vmul v (.raw (fracMk (tenPow 6) 1))),
   (['k'] ++ n, vmul v (.raw (fracMk (tenPow 3) 1))),
   (['h'] ++ n, vmul v (.raw (fracMk (tenPow 2) 1))),
   (['d'] ++ n, vmul v (.raw (fracMk 1 (tenPow 1)))),
   (['c'] ++ n, vmul v (.raw (fracMk 1 (tenPow 2)))),
   (['m'] ++ n, vmul v (.raw (fracMk 1 (tenPow 3)))),
   (['μ'] ++ n, vmul v (.raw (fracMk 1 (tenPow 6)))),
   (['n'] ++ n, vmul v (.raw (fracMk 1 (tenPow 9)))),
   (['p'] ++ n, vmul v (.raw (fracMk 1 (tenPow 12)))),
   (['f'] ++ n, vmul v (.raw (fracMk 1 (tenPow 15)))),
   (['a'] ++ n, vmul v (.raw (fracMk 1 (tenPow 18)))),
   (['z'] ++ n, vmul v (.raw (fracMk 1 (tenPow 21)))),
   (['y'] ++ n, vmul v (.raw (fracMk 1 (tenPow 24))))]

/-! ## Claim C9 -/

/-- `type(self).__name__` of the dimension class: `f'[{name}]'`. -/
def className (d : PowerMap) : Str := '[' :: (dimName d ++ [']'])

/-- `Quantity.__str__`: `str(self.__value) + type(self).__name__`.  The
payload's textual form is abstract (host float formatting). -/
def strQuantity (payloadText : Str) (d : PowerMap) : Str :=
  payloadText ++ className d

/-- Python's default `object.__repr__` for a `Quantity` instance —
`Quantity` defines no `__repr__` of its own, so `repr` renders
`<nutils.SI.Quantity.[name] object at ADDR>` with an unpredictable
address. -/
def reprDefault (addr : Str) (d : PowerMap) : Str :=
  ('<' :: ("nutils.SI.Quantity.".toList)) ++ (className d
    ++ ((" object at ".toList) ++ (addr ++ ['>'])))

/-- `Quantity.__format__` with an empty format spec returns `repr(self)`. -/
def formatEmptySpec (addr : Str) (d : PowerMap) : Str := reprDefault addr d

theorem natDigitsAux_congr : ∀ f g n : ℕ, n < f → n < g →
    natDigitsAux f n = natDigitsAux g n := by
  intro f
  induction f with
  | zero => omega
  | succ f ih =>
    intro g n hf hg
    match g, hg with
    | g + 1, _ =>
      simp only [natDigitsAux]
      by_cases h : n < 10
      · rw [if_pos h, if_pos h]
      · rw [if_neg h, if_neg h, ih g (n / 10) (by omega) (by omega)]

/-- Unfolding equation for `natDigits`. -/
theorem natDigits_eq (n : ℕ) : natDigits n =
    if n < 10 then [digitChar10 n]
    else natDigits (n / 10) ++ [digitChar10 (n % 10)] := by
  show natDigitsAux (n + 1) n = _
  rw [natDigitsAux]
  by_cases h : n < 10
  · rw [if_pos h, if_pos h]
  · rw [if_neg h, if_neg h,
      natDigitsAux_congr n (n / 10 + 1) (n / 10) (by omega) (by omega)]
    rfl

theorem digitVal_digitChar10 {d : ℕ} (h : d < 10) : digitVal (digitChar10 d) = d := by
  interval_cases d <;> decide

theorem natDigits_ne_nil (n : ℕ) : natDigits n ≠ [] := by
  rw [natDigits_eq]
  by_cases h : n < 10
  · rw [if_pos h]; simp
  · rw [if_neg h]; simp

theorem isDigit_digitChar10 {d : ℕ} (h : d < 10) : (digitChar10 d).isDigit = true := by
  interval_cases d <;> decide

theorem natDigits_all_digits (n : ℕ) : ∀ c ∈ natDigits n, c.isDigit = true := by
  induction n using Nat.strong_induction_on with
  | _ n ih =>
    by_cases h : n < 10
    · rw [natDigits_eq, if_pos h]
      simpa using isDigit_digitChar10 h
    · rw [natDigits_eq, if_neg h]
      intro c hc
      rcases List.mem_append.1 hc with hc | hc
      · exact ih (n / 10) (Nat.div_lt_self (by omega) (by omega)) c hc
      · simp only [List.mem_singleton] at hc
        subst hc
        exact isDigit_digitChar10 (Nat.mod_lt _ (by omega))

theorem digitsToNat_natDigits (n : ℕ) : digitsToNat (natDigits n) = n := by
  induction n using Nat.strong_induction_on with
  | _ n ih =>
    by_cases h : n < 10
    · rw [natDigits_eq, if_pos h]
      simp [digitsToNat, digitVal_digitChar10 h]
    · rw [natDigits_eq, if_neg h]
      have := ih (n / 10) (Nat.div_lt_self (by omega) (by omega))
      simp only [digitsToNat, List.foldl_append, List.foldl_cons, List.foldl_nil] at this ⊢
      rw [this, digitVal_digitChar10 (Nat.mod_lt _ (by omega))]
      omega

theorem natDigits_inj {m n : ℕ} (h : natDigits m = natDigits n) : m = n := by
  have := digitsToNat_natDigits m
  rw [h, digitsToNat_natDigits] at this
  omega

/-- Entry lists that are permutations of one another (equal dicts) sort to the
same canonical list. -/
theorem sortEntries_congr {m1 m2 : PowerMap} (h : m1.Perm m2) :
    sortEntries m1 = sortEntries m2 :=
  List.eq_of_perm_of_sorted
    (((List.perm_insertionSort _ m1).trans h).trans (List.perm_insertionSort _ m2).symm)
    (List.sorted_insertionSort _ m1) (List.sorted_insertionSort _ m2)

theorem validBase_spec {b : Str} (h : validBase b = true) :
    b ≠ [] ∧ (∀ c ∈ b, c ≠ '*' ∧ c ≠ '/') ∧
      ∀ c, b.getLast? = some c → isDU c = false := by
  unfold validBase at h
  rcases hl : b.getLast? with _ | c
  · rw [hl] at h; exact absurd h (by simp)
  · rw [hl] at h
    have hne : b ≠ [] := by
      intro he; rw [he] at hl; exact absurd hl (by simp)
    simp only [Bool.and_eq_true, List.all_eq_true] at h
    refine ⟨hne, fun ch hc => ?_, fun ch hc => ?_⟩
    · have := h.1 ch hc
      simp only [Bool.and_eq_true, decide_eq_true_eq] at this
      exact this
    · injection hc with hcc
      subst hcc
      simpa [isDU] using h.2

/-- Generic cancellation for self-delimiting concatenations: if `x₁, x₂`
consist of characters satisfying `p` and `r₁, r₂` are empty or start with a
character violating `p`, then `x₁ ++ r₁ = x₂ ++ r₂` splits uniquely. -/
theorem append_stop_cancel {p : Char → Bool} :
    ∀ {x1 x2 r1 r2 : Str},
    (∀ c ∈ x1, p c = true) → (∀ c ∈ x2, p c = true) →
    (∀ c, r1.head? = some c → p c = false) →
    (∀ c, r2.head? = some c → p c = false) →
    x1 ++ r1 = x2 ++ r2 → x1 = x2 ∧ r1 = r2 := by
  intro x1
  induction x1 with
  | nil =>
    intro x2 r1 r2 _ hx2 hr1 _ h
    cases x2 with
    | nil => exact ⟨rfl, h⟩
    | cons c x2t =>
      simp only [List.nil_append, List.cons_append] at h
      subst h
      have h1 := hr1 c (by simp)
      have h2 := hx2 c (by simp)
      rw [h1] at h2
      cases h2
  | cons a x1t ih =>
    intro x2 r1 r2 hx1 hx2 hr1 hr2 h
    cases x2 with
    | nil =>
      simp only [List.nil_append, List.cons_append] at h
      subst h
      have h1 := hr2 a (by simp)
      have h2 := hx1 a (by simp)
      rw [h1] at h2
      cases h2
    | cons b x2t =>
      simp only [List.cons_append, List.cons.injEq] at h
      obtain ⟨rfl, h⟩ := h
      obtain ⟨he, hr⟩ := ih (fun c hc => hx1 c (by simp [hc]))
        (fun c hc => hx2 c (by simp [hc])) hr1 hr2 h
      exact ⟨by rw [he], hr⟩

theorem token_eq (b : Str) (p : ℚ) :
    token b p = signChar p :: (b ++ (numPart p ++ denPart p)) := by
  unfold token signChar numPart denPart
  by_cases h : 0 < p <;> simp [h, List.append_assoc]

theorem numPart_all_du (p : ℚ) : ∀ c ∈ numPart p, isDU c = true := by
  unfold numPart
  split
  · intro c hc
    simp [isDU, natDigits_all_digits _ c hc]
  · simp

theorem denPart_all_du (p : ℚ) : ∀ c ∈ denPart p, isDU c = true := by
  unfold denPart
  split
  · intro c hc
    rcases List.mem_cons.1 hc with rfl | hc
    · decide
    · simp [isDU, natDigits_all_digits _ c hc]
  · simp

theorem du_not_star_slash {c : Char} (h : isDU c = true) : c ≠ '*' ∧ c ≠ '/' := by
  constructor <;> rintro rfl <;> simp [isDU] at h

theorem signChar_cases (p : ℚ) : signChar p = '*' ∨ signChar p = '/' := by
  unfold signChar
  split
  · exact Or.inl rfl
  · exact Or.inr rfl

theorem signChar_inj {p q : ℚ} (h : signChar p = signChar q) : 0 < p ↔ 0 < q := by
  unfold signChar at h
  by_cases hp : 0 < p <;> by_cases hq : 0 < q
  · exact iff_of_true hp hq
  · rw [if_pos hp, if_neg hq] at h
    exact absurd h (by decide)
  · rw [if_neg hp, if_pos hq] at h
    exact absurd h (by decide)
  · exact iff_of_false hp hq

/-- Recover the base from `base ++ suffix` when the base is valid and the
suffix consists of digit/underscore characters (Python's `rstrip`). -/
theorem base_suffix_cancel {b1 b2 s1 s2 : Str}
    (hb1 : validBase b1 = true) (hb2 : validBase b2 = true)
    (hs1 : ∀ c ∈ s1, isDU c = true) (hs2 : ∀ c ∈ s2, isDU c = true)
    (h : b1 ++ s1 = b2 ++ s2) : b1 = b2 ∧ s1 = s2 := by
  have hrev : s1.reverse ++ b1.reverse = s2.reverse ++ b2.reverse := by
    rw [← List.reverse_append, ← List.reverse_append, h]
  have hlast : ∀ {b : Str}, validBase b = true →
      ∀ c, b.reverse.head? = some c → isDU c = false := by
    intro b hb c hc
    rw [List.head?_reverse] at hc
    exact (validBase_spec hb).2.2 c hc
  obtain ⟨e1, e2⟩ := append_stop_cancel (p := isDU)
    (fun c hc => hs1 c (List.mem_reverse.1 hc))
    (fun c hc => hs2 c (List.mem_reverse.1 hc))
    (hlast hb1) (hlast hb2) hrev
  exact ⟨List.reverse_inj.1 e2, List.reverse_inj.1 e1⟩

theorem digit_ne_underscore {c : Char} (h : c.isDigit = true) : c ≠ '_' := by
  rintro rfl
  exact absurd h (by decide)

theorem numPart_all_digits (p : ℚ) : ∀ c ∈ numPart p, c.isDigit = true := by
  unfold numPart
  split
  · exact natDigits_all_digits _
  · simp

theorem denPart_head (p : ℚ) : ∀ c, (denPart p).head? = some c → c = '_' := by
  unfold denPart
  split
  · intro c hc
    simpa using hc.symm
  · simp

/-- Recover the exponent from its token suffix: the digit groups determine
the magnitudes, the sign character determines the sign. -/
theorem suffix_inj {p q : ℚ} (hp : p ≠ 0) (hq : q ≠ 0) (hsign : 0 < p ↔ 0 < q)
    (h : numPart p ++ denPart p = numPart q ++ denPart q) : p = q := by
  obtain ⟨hnum, hden⟩ := append_stop_cancel (p := fun c => decide (c ≠ '_'))
    (fun c hc => by
      simpa using digit_ne_underscore (numPart_all_digits p c hc))
    (fun c hc => by
      simpa using digit_ne_underscore (numPart_all_digits q c hc))
    (fun c hc => by simp [denPart_head p c hc])
    (fun c hc => by simp [denPart_head q c hc]) h
  have hnabs : p.num.natAbs = q.num.natAbs := by
    unfold numPart at hnum
    by_cases h1 : p.num.natAbs ≠ 1 <;> by_cases h2 : q.num.natAbs ≠ 1
    · rw [if_pos h1, if_pos h2] at hnum
      exact natDigits_inj hnum
    · rw [if_pos h1, if_neg h2] at hnum
      exact absurd hnum (natDigits_ne_nil _)
    · rw [if_neg h1, if_pos h2] at hnum
      exact absurd hnum.symm (natDigits_ne_nil _)
    · omega
  have hdens : p.den = q.den := by
    unfold denPart at hden
    by_cases h1 : p.den ≠ 1 <;> by_cases h2 : q.den ≠ 1
    · rw [if_pos h1, if_pos h2] at hden
      injection hden with _ hden
      exact natDigits_inj hden
    · rw [if_pos h1, if_neg h2] at hden
      exact absurd hden (by simp)
    · rw [if_neg h1, if_pos h2] at hden
      exact absurd hden (by simp)
    · omega
  have hnum0 : p.num ≠ 0 := Rat.num_ne_zero.2 hp
  have hqnum0 : q.num ≠ 0 := Rat.num_ne_zero.2 hq
  have hps : 0 < p.num ↔ 0 < q.num := by
    rw [Rat.num_pos, Rat.num_pos]
    exact hsign
  have hnums : p.num = q.num := by
    rcases Int.natAbs_eq_natAbs_iff.1 hnabs with h | h
    · exact h
    · by_cases hpp : 0 < p.num
      · have := hps.1 hpp
        omega
      · have h2 : ¬ 0 < q.num := fun hx => hpp (hps.2 hx)
        omega
  exact Rat.ext hnums hdens

/-- A whole token determines its base and exponent. -/
theorem token_inj {b1 b2 : Str} {p q : ℚ}
    (hb1 : validBase b1 = true) (hb2 : validBase b2 = true)
    (hp : p ≠ 0) (hq : q ≠ 0) (h : token b1 p = token b2 q) :
    b1 = b2 ∧ p = q := by
  rw [token_eq, token_eq] at h
  injection h with hsign h
  have hsuf : ∀ (r : ℚ), ∀ c ∈ numPart r ++ denPart r, isDU c = true := by
    intro r c hc
    rcases List.mem_append.1 hc with hc | hc
    · exact numPart_all_du r c hc
    · exact denPart_all_du r c hc
  obtain ⟨hb, hs⟩ := base_suffix_cancel hb1 hb2 (hsuf p) (hsuf q) h
  exact ⟨hb, suffix_inj hp hq (signChar_inj hsign) hs⟩

theorem flatten_tok_head (l : PowerMap) :
    ∀ c, ((l.map tok).flatten).head? = some c →
      (decide (c ≠ '*') && decide (c ≠ '/')) = false := by
  cases l with
  | nil => simp
  | cons e t =>
    intro c hc
    rw [List.map_cons, List.flatten_cons, tok, token_eq] at hc
    simp only [List.cons_append, List.head?_cons, Option.some.injEq] at hc
    subst hc
    rcases signChar_cases e.2 with h | h <;> rw [h] <;> decide

theorem token_body_not_star_slash {b : Str} {p : ℚ} (hb : validBase b = true) :
    ∀ c ∈ b ++ (numPart p ++ denPart p),
      (decide (c ≠ '*') && decide (c ≠ '/')) = true := by
  intro c hc
  rcases List.mem_append.1 hc with hc | hc
  · have := (validBase_spec hb).2.1 c hc
    simp [this.1, this.2]
  · have hdu : isDU c = true := by
      rcases List.mem_append.1 hc with hc | hc
      · exact numPart_all_du p c hc
      · exact denPart_all_du p c hc
    have := du_not_star_slash hdu
    simp [this.1, this.2]

/-- The concatenation of tokens determines the entry list: tokens are
self-delimiting because each starts with `'*'` or `'/'` and contains no
other occurrence of either character. -/
theorem flatten_tok_inj : ∀ l1 l2 : PowerMap, WFEntries l1 → WFEntries l2 →
    (l1.map tok).flatten = (l2.map tok).flatten → l1 = l2 := by
  intro l1
  induction l1 with
  | nil =>
    intro l2 _ _ h
    cases l2 with
    | nil => rfl
    | cons e t =>
      rw [List.map_cons, List.flatten_cons, tok, token_eq] at h
      exact absurd h.symm (by simp)
  | cons a t1 ih =>
    intro l2 h1 h2 h
    cases l2 with
    | nil =>
      rw [List.map_cons, List.flatten_cons, tok, token_eq] at h
      exact absurd h (by simp)
    | cons b t2 =>
      obtain ⟨ha1, ha2⟩ := h1 a (by simp)
      obtain ⟨hb1, hb2⟩ := h2 b (by simp)
      simp only [List.map_cons, List.flatten_cons] at h
      rw [tok, tok, token_eq, token_eq] at h
      simp only [List.cons_append] at h
      injection h with hsg h
      have h' : (a.1 ++ (numPart a.2 ++ denPart a.2)) ++ (t1.map tok).flatten
          = (b.1 ++ (numPart b.2 ++ denPart b.2)) ++ (t2.map tok).flatten := by
        simpa [List.append_assoc] using h
      obtain ⟨hy, hr⟩ := append_stop_cancel
        (p := fun c => decide (c ≠ '*') && decide (c ≠ '/'))
        (token_body_not_star_slash (p := a.2) ha1)
        (token_body_not_star_slash (p := b.2) hb1)
        (flatten_tok_head t1) (flatten_tok_head t2) h'
      have htok : token a.1 a.2 = token b.1 b.2 := by
        rw [token_eq, token_eq, hsg, hy]
      obtain ⟨hbase, hpow⟩ := token_inj ha1 hb1 ha2 hb2 htok
      have hab : a = b := Prod.ext hbase hpow
      subst hab
      rw [ih t2 (fun e he => h1 e (by simp [he])) (fun e he => h2 e (by simp [he])) hr]

/-- Well-formed token concatenations can be recovered from their
`lstrip('*')`-stripped form: the stripped name determines the full string. -/
theorem unstrip (l : PowerMap) (hv : WFEntries l) :
    (l.map tok).flatten =
      if (dropStars ((l.map tok).flatten)).head? = some '/'
      then dropStars ((l.map tok).flatten)
      else if dropStars ((l.map tok).flatten) = [] then []
      else '*' :: dropStars ((l.map tok).flatten) := by
  cases l with
  | nil => simp [dropStars]
  | cons e t =>
    obtain ⟨he1, _⟩ := hv e (by simp)
    obtain ⟨hbne, hbchars, _⟩ := validBase_spec he1
    rw [List.map_cons, List.flatten_cons, tok, token_eq]
    simp only [List.cons_append]
    rcases hhd : (e.1 ++ (numPart e.2 ++ denPart e.2)) ++ ((t.map tok).flatten)
        with _ | ⟨c, y⟩
    · cases e1 : e.1 with
      | nil => exact absurd e1 hbne
      | cons c bt =>
        rw [e1] at hhd
        exact absurd hhd (by simp)
    · have hchead : c ∈ e.1 := by
        cases e1 : e.1 with
        | nil => exact absurd e1 hbne
        | cons c0 bt =>
          rw [e1] at hhd
          simp only [List.cons_append, List.cons.injEq] at hhd
          simp [e1, hhd.1.symm]
      have hcss := hbchars c hchead
      rcases signChar_cases e.2 with hs | hs <;> rw [hs]
      · have hds : dropStars ('*' :: c :: y) = c :: y := by
          rw [dropStars, List.dropWhile_cons, if_pos (by decide),
            List.dropWhile_cons, if_neg (by simp [hcss.1])]
        rw [hds, if_neg (by simp [hcss.2]), if_neg (by simp)]
      · have hds : dropStars ('/' :: c :: y) = '/' :: c :: y := by
          rw [dropStars, List.dropWhile_cons, if_neg (by decide)]
        rw [hds, if_pos (by simp)]

/-- The canonical name (stripped token concatenation) is injective on
well-formed entry lists. -/
theorem nameOf_inj {l1 l2 : PowerMap} (h1 : WFEntries l1) (h2 : WFEntries l2)
    (h : dropStars ((l1.map tok).flatten) = dropStars ((l2.map tok).flatten)) :
    l1 = l2 := by
  have e1 := unstrip l1 h1
  have e2 := unstrip l2 h2
  rw [h] at e1
  exact flatten_tok_inj l1 l2 h1 h2 (e1.trans e2.symm)

/-- On power maps whose bases are valid root symbols, equal canonical names
force the zero-dropped maps to be equal as dicts (permutations). -/
theorem dimName_inj {m1 m2 : PowerMap}
    (h1 : allValidBases (dropZeros m1) = true)
    (h2 : allValidBases (dropZeros m2) = true)
    (h : dimName (dropZeros m1) = dimName (dropZeros m2)) :
    (dropZeros m1).Perm (dropZeros m2) := by
  have hw : ∀ (m : PowerMap), allValidBases (dropZeros m) = true →
      WFEntries (sortEntries (dropZeros m)) := by
    intro m hm e he
    have hmem : e ∈ dropZeros m := (List.perm_insertionSort entryGE _).subset he
    refine ⟨List.all_eq_true.1 hm e hmem, ?_⟩
    have := (List.mem_filter.1 hmem).2
    simpa using this
  have heq : sortEntries (dropZeros m1) = sortEntries (dropZeros m2) :=
    nameOf_inj (hw m1 h1) (hw m2 h2) h
  have p1 : (dropZeros m1).Perm (sortEntries (dropZeros m1)) :=
    (List.perm_insertionSort entryGE _).symm
  rw [heq] at p1
  exact p1.trans (List.perm_insertionSort entryGE _)

/-- Permuting the (zero-dropped) bindings of the argument does not change
the canonical name. -/
theorem dimName_congr {m1 m2 : PowerMap} (h : (dropZeros m1).Perm (dropZeros m2)) :
    dimName (dropZeros m1) = dimName (dropZeros m2) := by
  unfold dimName
  rw [sortEntries_congr h]

theorem alookup_append_single {α : Type} (l : List (Str × α)) (k key : Str) (v : α) :
    alookup (l ++ [(k, v)]) key =
      (alookup l key).or (if k = key then some v else none) := by
  induction l with
  | nil => simp [alookup]
  | cons e t ih =>
    obtain ⟨k1, v1⟩ := e
    simp only [List.cons_append, alookup]
    by_cases hk : k1 = key
    · rw [if_pos hk, if_pos hk]
      rfl
    · rw [if_neg hk, if_neg hk]
      exact ih

theorem from_powers_hit {reg : Registry} {arg : PowerMap} {ps : PowerMap}
    (hc : alookup reg.cache (dimName (dropZeros arg)) = some ps) :
    from_powers reg arg = (⟨dimName (dropZeros arg), ps⟩, reg) := by
  unfold from_powers
  simp only []
  rw [hc]

theorem from_powers_miss {reg : Registry} {arg : PowerMap}
    (hc : alookup reg.cache (dimName (dropZeros arg)) = none) :
    from_powers reg arg = (⟨dimName (dropZeros arg), dropZeros arg⟩,
      ⟨reg.cache ++ [(dimName (dropZeros arg), dropZeros arg)]⟩) := by
  unfold from_powers
  simp only []
  rw [hc]

/-- Sequential determinism of `from_powers`: a second call with an equal
(zero-dropped) map returns the identical cached identity and leaves the
registry untouched. -/
theorem from_powers_cached (reg : Registry) (m1 m2 : PowerMap)
    (h : (dropZeros m1).Perm (dropZeros m2)) :
    from_powers (from_powers reg m1).2 m2 = from_powers reg m1 := by
  have hname := dimName_congr h
  rcases hc : alookup reg.cache (dimName (dropZeros m1)) with _ | ps
  · rw [from_powers_miss hc]
    have e2 : alookup
        (Registry.mk (reg.cache ++ [(dimName (dropZeros m1), dropZeros m1)])).cache
        (dimName (dropZeros m2)) = some (dropZeros m1) := by
      show alookup (reg.cache ++ [(dimName (dropZeros m1), dropZeros m1)])
        (dimName (dropZeros m2)) = some (dropZeros m1)
      rw [← hname, alookup_append_single, hc, if_pos rfl]
      rfl
    rw [from_powers_hit e2, ← hname]
  · rw [from_powers_hit hc]
    have e2 : alookup reg.cache (dimName (dropZeros m2)) = some ps := by
      rw [← hname]
      exact hc
    rw [from_powers_hit e2, ← hname]

theorem from_powers_name (reg : Registry) (m : PowerMap) :
    (from_powers reg m).1.name = dimName (dropZeros m) := by
  rcases hc : alookup reg.cache (dimName (dropZeros m)) with _ | ps
  · rw [from_powers_miss hc]
  · rw [from_powers_hit hc]

/-- The descending sort of `from_powers` is the reverse of the ascending
`(power, symbol)` sort. -/
theorem sortEntries_eq_reverse (l : PowerMap) :
    sortEntries l = (List.insertionSort entryLE l).reverse := by
  refine List.eq_of_perm_of_sorted (r := entryGE)
    ((List.perm_insertionSort entryGE l).trans
      ((List.perm_insertionSort entryLE l).symm.trans (List.reverse_perm _).symm))
    (List.sorted_insertionSort entryGE l) ?_
  have hs : List.Sorted entryLE (List.insertionSort entryLE l) :=
    List.sorted_insertionSort entryLE l
  unfold List.Sorted at hs ⊢
  rw [List.pairwise_reverse]
  exact hs

/-! ## Claim C1 -/

/-- C1, counterexample: the registry is not a bijection over arbitrary power
maps.  The dicts `{"m2": 1}` and `{"m": 2}` have different (already
zero-dropped) power maps, yet receive the same canonical name `"m2"`, and a
second sequential call of `from_powers` even returns the identity that was
cached for the other map. -/
theorem registry_name_collision :
    ¬ (dropZeros [(['m', '2'], (1 : ℚ))]).Perm (dropZeros [(['m'], (2 : ℚ))])
    ∧ dimName (dropZeros [(['m', '2'], (1 : ℚ))])
      = dimName (dropZeros [(['m'], (2 : ℚ))])
    ∧ (from_powers (from_powers ⟨[]⟩ [(['m', '2'], (1 : ℚ))]).2 [(['m'], (2 : ℚ))]).1
      = (from_powers ⟨[]⟩ [(['m', '2'], (1 : ℚ))]).1 := by
  decide

/-- C1, amended: restricted to power maps whose base symbols are valid root
symbols (exactly what `Dimension.create` enforces), the registry is a
bijection between zero-dropped power maps and cached identities: a second
call of `from_powers` with an equal (as a dict, i.e. permuted) zero-dropped
map returns the identical cached identity and leaves the registry unchanged,
while maps with different zero-dropped forms never receive the same
canonical name, hence never the same identity. -/
theorem registry_bijection_on_valid_bases (reg : Registry) (m1 m2 : PowerMap)
    (h1 : allValidBases (dropZeros m1) = true)
    (h2 : allValidBases (dropZeros m2) = true) :
    ((dropZeros m1).Perm (dropZeros m2) →
      from_powers (from_powers reg m1).2 m2 = from_powers reg m1)
    ∧ (¬ (dropZeros m1).Perm (dropZeros m2) →
      (from_powers reg m1).1.name ≠ (from_powers reg m2).1.name) := by
  refine ⟨from_powers_cached reg m1 m2, fun hne heq => hne ?_⟩
  rw [from_powers_name, from_powers_name] at heq
  exact dimName_inj h1 h2 heq

/-- Witness for the amended C1 at concrete inputs. -/
theorem registry_bijection_on_valid_bases_witness :
    (allValidBases (dropZeros [(['m'], (1 : ℚ)), (['s'], (0 : ℚ))]) = true
      ∧ allValidBases (dropZeros [(['s'], (1 : ℚ))]) = true)
    ∧ (¬ (dropZeros [(['m'], (1 : ℚ)), (['s'], (0 : ℚ))]).Perm
          (dropZeros [(['s'], (1 : ℚ))]) →
        (from_powers ⟨[]⟩ [(['m'], (1 : ℚ)), (['s'], (0 : ℚ))]).1.name
          ≠ (from_powers ⟨[]⟩ [(['s'], (1 : ℚ))]).1.name) :=
  ⟨⟨by decide, by decide⟩,
    (registry_bijection_on_valid_bases ⟨[]⟩ _ _ (by decide) (by decide)).2⟩

/-! ## Claim C2 -/

/-- C2, counterexample: for the nonempty power map `{a: 1, b: 2}` the
canonical name built by `from_powers` is `"b2*a"` (descending power first,
leading star stripped), not the claim's symbol-sorted unstripped
`"*a*b2"`. -/
theorem canonical_name_formula_counterexample :
    (from_powers ⟨[]⟩ [(['a'], (1 : ℚ)), (['b'], (2 : ℚ))]).1.name
      ≠ specNameC2 [(['a'], (1 : ℚ)), (['b'], (2 : ℚ))] := by
  decide

/-- C2, amended: for every power map with a nonempty zero-dropped form, the
canonical name built by `from_powers` is the concatenation, over entries
sorted by descending `(power, symbol)` (the reverse of the ascending sort on
the reversed items), of tokens prefixed with `'*'` for positive exponents
and `'/'` for negative exponents — numerator omitted when its magnitude is
1, denominator and its `'_'` separator omitted when it is 1 — with the
leading `'*'` stripped. -/
theorem canonical_name_formula (reg : Registry) (m : PowerMap)
    (_h : dropZeros m ≠ []) :
    (from_powers reg m).1.name = specNameDescending (dropZeros m) := by
  rw [from_powers_name]
  unfold dimName specNameDescending
  rw [sortEntries_eq_reverse]

/-- Witness for the amended C2 at a concrete input. -/
theorem canonical_name_formula_witness :
    dropZeros [(['a'], (1 : ℚ)), (['b'], (2 : ℚ))] ≠ []
    ∧ (from_powers ⟨[]⟩ [(['a'], (1 : ℚ)), (['b'], (2 : ℚ))]).1.name
      = specNameDescending (dropZeros [(['a'], (1 : ℚ)), (['b'], (2 : ℚ))]) :=
  ⟨by decide, canonical_name_formula ⟨[]⟩ _ (by decide)⟩

theorem parseStep_eq_specFactorValue (um : UnitsMap) (q : Value)
    (fpb : Str × ℚ × Bool) :
    parseStep um q fpb = (specFactorValue um fpb.1 fpb.2.1).map
      (fun v => if fpb.2.2 then vmul q v else vdiv q v) := by
  unfold parseStep specFactorValue
  rcases hc : leadingCoeff fpb.1 with _ | c
  · simp [hc]
  · rcases hl : alookup um (fpb.1.dropWhile isCoeffChar) with _ | uval
    · simp [hc, hl]
    · simp [hc, hl]

theorem foldlM_parseStep_eq_specFold (um : UnitsMap) :
    ∀ (fs : List (Str × ℚ × Bool)) (acc : Value),
    fs.foldlM (parseStep um) acc = specFold um fs acc := by
  intro fs
  induction fs with
  | nil =>
    intro acc
    rfl
  | cons fpb rest ih =>
    intro acc
    rw [List.foldlM_cons, parseStep_eq_specFactorValue]
    rcases hv : specFactorValue um fpb.1 fpb.2.1 with _ | v
    · simp [specFold, hv]
    · simp only [Option.map_some, Option.some_bind, specFold, hv]
      exact ih _

/-- C3: `parse` folds a quantity string exactly as specified — the leading
coefficient (1 when absent) starts a dimensionless accumulator, and each
factor in order multiplies (numerator) or divides (denominator) it by the
factor's coefficient times the registry value raised to the factor's
exponent; in particular, on the module registry the value returned by
`parse("9.81m/s2")` carries dimension Length / (Time · Time). -/
theorem parse_folds_factors :
    (∀ (um : UnitsMap) (s : Str), parseFold um s = specParse um s)
    ∧ (parse unitsSI7 ['9', '.', '8', '1', 'm', '/', 's', '2']).map vdim
      = some (dimDivD (canonPowers LengthD)
          (dimMulD (canonPowers TimeD) (canonPowers TimeD))) := by
  constructor
  · intro um s
    unfold parseFold specParse
    rcases hc : leadingCoeff s with _ | c
    · simp [hc]
    · rcases hf : split_factors (s.dropWhile isCoeffChar) with _ | factors
      · simp [hc, hf]
      · simp [hc, hf, foldlM_parseStep_eq_specFold]
  · decide

/-! ## Claim C4 -/

/-- C4: for every additive operation (`add`, `sub`, `hypot`) on two
dimensioned operands, a second operand whose dimension class differs from
the first's raises `TypeError` (`none`), and equal dimensions succeed with
a result wrapped in the first operand's dimension whose raw payload is the
host-library result `op` applied to the raw payloads. -/
theorem additive_dispatch (op : ℚ → ℚ → ℚ) (d e : PowerMap) (x y : ℚ)
    (hd : d ≠ []) :
    (e ≠ d → dispatchAdditive op (.qty d x) (.qty e y) = none)
    ∧ (e = d → dispatchAdditive op (.qty d x) (.qty e y)
        = some (.qty d (op x y))) := by
  constructor
  · intro hne
    simp only [dispatchAdditive, vclass]
    rw [if_neg (by simpa using hne)]
  · rintro rfl
    simp only [dispatchAdditive, vclass]
    rw [if_pos trivial]
    unfold wrap
    rw [if_neg (by simpa using hd)]
    rfl

/-- Witness for C4: with host addition, mismatched dimensions fail and
matched dimensions add the raw payloads under the shared dimension. -/
theorem additive_dispatch_witness :
    (([(['L'], (1 : ℚ))] : PowerMap) ≠ []
      ∧ dispatchAdditive (· + ·) (.qty [(['L'], (1 : ℚ))] 3)
          (.qty [(['T'], (1 : ℚ))] 4) = none)
    ∧ dispatchAdditive (· + ·) (.qty [(['L'], (1 : ℚ))] 3)
        (.qty [(['L'], (1 : ℚ))] 4) = some (.qty [(['L'], (1 : ℚ))] (3 + 4)) :=
  ⟨⟨by decide, (additive_dispatch _ _ _ _ _ (by decide)).1 (by decide)⟩,
   (additive_dispatch _ _ _ _ _ (by decide)).2 rfl⟩

/-! ## Claim C5 -/

/-- C5: for every comparison operation (`lt`, `le`, `eq`, `ne`, `gt`, `ge`,
`isfinite`, `isnan`), an operand whose class differs from the first
operand's raises `TypeError` (`none`); otherwise the operation succeeds,
and the result is the bare host value — `__wrap__` on the dimensionless
class `from_powers({})` returns it unwrapped, never in a dimension
wrapper. -/
theorem comparison_dispatch (op : List ℚ → ℚ) (a : Value) (rest : List Value) :
    ((∃ q ∈ rest, vclass q ≠ vclass a) → dispatchComparison op a rest = none)
    ∧ ((∀ q ∈ rest, vclass q = vclass a) →
        dispatchComparison op a rest = some (.raw (op ((a :: rest).map vraw)))) := by
  constructor
  · rintro ⟨q, hq, hne⟩
    have hcond : ¬ (rest.all (fun q => decide (vclass q = vclass a)) = true) := by
      simp only [List.all_eq_true, decide_eq_true_eq]
      intro hall
      exact hne (hall q hq)
    unfold dispatchComparison
    rw [if_neg hcond]
  · intro hall
    have hcond : rest.all (fun q => decide (vclass q = vclass a)) = true := by
      simp only [List.all_eq_true, decide_eq_true_eq]
      exact hall
    unfold dispatchComparison
    rw [if_pos hcond]
    rfl

/-- Witness for C5 at concrete inputs: a Length/Time comparison fails, a
Length/Length comparison returns the bare host value. -/
theorem comparison_dispatch_witness :
    dispatchComparison (fun _ => (1 : ℚ)) (.qty [(['L'], (1 : ℚ))] 1)
        [.qty [(['T'], (1 : ℚ))] 2] = none
    ∧ dispatchComparison (fun _ => (1 : ℚ)) (.qty [(['L'], (1 : ℚ))] 1)
        [.qty [(['L'], (1 : ℚ))] 2] = some (.raw 1) :=
  ⟨(comparison_dispatch _ _ _).1 ⟨.qty [(['T'], (1 : ℚ))] 2, by simp, by decide⟩,
   ((comparison_dispatch _ _ _).2 (by decide)).trans rfl⟩

/-! ## Claim C6 -/

/-- C6: unit definition is atomic all-or-nothing.  For every registry state
and every definition whose symbol is already defined or whose
metric-prefixed names collide with an existing entry, `Units.__setattr__`
raises (`false`) with the registry completely unmodified: every previously
defined symbol still resolves to its previous value and no entry is
inserted. -/
theorem define_unit_collision_atomic (um : UnitsMap) (n : Str) (v : Value)
    (h : (alookup um n).isSome = true
      ∨ ∃ pf ∈ prefixTable, (alookup um (pf.1 ++ n)).isSome = true) :
    setattrUnits um n v = (false, um)
    ∧ ∀ k, alookup (setattrUnits um n v).2 k = alookup um k := by
  have hmain : setattrUnits um n v = (false, um) := by
    cases v with
    | raw x => rfl
    | qty d x =>
      unfold setattrUnits
      simp only []
      by_cases hn : (alookup um n).isSome = true
      · rw [if_pos hn]
      · rw [if_neg hn]
        rcases h with h | ⟨pf, hpf, hcol⟩
        · exact absurd h hn
        · rw [if_pos (by
            simp only [List.any_eq_true, List.mem_map]
            exact ⟨(pf.1 ++ n, vmul (.qty d x) (.raw pf.2)), ⟨pf, hpf, rfl⟩, hcol⟩)]
  exact ⟨hmain, fun k => by rw [hmain]⟩

/-- Witness for C6: defining `"ol"` when `"mol"` exists collides through
the `m` prefix and leaves the registry unchanged. -/
theorem define_unit_collision_atomic_witness :
    ((alookup [((['m', 'o', 'l'] : Str), reference_quantity AmountD)]
        ['o', 'l']).isSome = true
      ∨ ∃ pf ∈ prefixTable,
        (alookup [((['m', 'o', 'l'] : Str), reference_quantity AmountD)]
          (pf.1 ++ ['o', 'l'])).isSome = true)
    ∧ setattrUnits [((['m', 'o', 'l'] : Str), reference_quantity AmountD)]
        ['o', 'l'] (reference_quantity LengthD)
      = (false, [(['m', 'o', 'l'], reference_quantity AmountD)]) :=
  ⟨by decide, (define_unit_collision_atomic _ _ _ (by decide)).1⟩

/-! ## Claim C7 -/

/-- C7, counterexample: a successful definition on the empty registry
inserts the literal entry plus 19 prefixed entries — 20 in total, not the
claimed 1 + 20 = 21 (there are only 19 prefixes: no deka `da`). -/
theorem define_unit_inserts_twenty_counterexample :
    (setattrUnits [] ['u'] (.qty [(['L'], (1 : ℚ))] 1)).1 = true
    ∧ (setattrUnits [] ['u'] (.qty [(['L'], (1 : ℚ))] 1)).2.length = 20
    ∧ (20 : ℕ) ≠ 21 := by
  decide

/-- C7, amended: every successful unit definition inserts, besides the
literal entry, exactly the 19 metric-prefixed entries of
`specPrefixExpansion` (prefix symbols Y,Z,E,P,T,G,M,k,h,d,c,m,μ,n,p,f,a,z,y
with scale factors from 1e24 to 1e-24), each mapping the prefixed symbol to
the base value scaled by the prefix factor. -/
theorem define_unit_prefix_expansion (um : UnitsMap) (n : Str) (d : PowerMap)
    (x : ℚ)
    (h1 : alookup um n = none)
    (h2 : ∀ pf ∈ prefixTable, alookup um (pf.1 ++ n) = none) :
    setattrUnits um n (.qty d x)
      = (true, um ++ (n, Value.qty d x) :: specPrefixExpansion n (.qty d x)) := by
  unfold setattrUnits
  simp only []
  rw [if_neg (by simp [h1])]
  rw [if_neg (by
    simp only [List.any_eq_true, List.mem_map, not_exists]
    rintro e ⟨⟨pf, hpf, rfl⟩, hcol⟩
    rw [h2 pf hpf] at hcol
    exact absurd hcol (by simp))]
  rfl

/-- Witness for the amended C7 on the empty registry. -/
theorem define_unit_prefix_expansion_witness :
    alookup ([] : UnitsMap) ['u'] = none
    ∧ (∀ pf ∈ prefixTable, alookup ([] : UnitsMap) (pf.1 ++ ['u']) = none)
    ∧ setattrUnits [] ['u'] (.qty [(['L'], (1 : ℚ))] 1)
      = (true, [] ++ (['u'], Value.qty [(['L'], (1 : ℚ))] 1)
          :: specPrefixExpansion ['u'] (.qty [(['L'], (1 : ℚ))] 1)) :=
  ⟨rfl, by decide, define_unit_prefix_expansion [] ['u'] _ _ rfl (by decide)⟩

/-! ## Claim C8 -/

/-- C8: the fold of `parse("2m/m")` does produce the bare raw value `2.0`
(the unit factors cancel), but `parse` then raises `AttributeError` at
`q._parsed_from = s` because a float accepts no attributes — instead of
returning the raw value as the specification (and `Dimension.__call__`'s
`expect = float` branch) intends. -/
theorem parse_dimensionless_raises :
    parseFold unitsSI7 ['2', 'm', '/', 'm'] = some (.raw 2)
    ∧ parse unitsSI7 ['2', 'm', '/', 'm'] = none := by
  decide

/-- C9, counterexample: formatting with an empty format spec does not
produce the canonical `"<raw><dimension-name>"` display — it returns the
default object repr, which starts with `'<'`. -/
theorem format_empty_spec_counterexample :
    formatEmptySpec ['0', 'x', '1'] (canonPowers LengthD)
      ≠ strQuantity ['2', '.', '0'] (canonPowers LengthD) := by
  decide

/-- C9, amended: `__format__` with an empty spec returns the default object
repr (no `__repr__` is defined), which never equals the canonical display
when the payload text starts with a digit or a minus sign; the canonical
display `"<raw><class-name>"` is what `__str__` produces. -/
theorem format_empty_returns_repr (addr t0 : Str) (c : Char) (d : PowerMap)
    (h : c.isDigit = true ∨ c = '-') :
    formatEmptySpec addr d ≠ strQuantity (c :: t0) d
    ∧ strQuantity (c :: t0) d = (c :: t0) ++ ('[' :: (dimName d ++ [']'])) := by
  constructor
  · intro heq
    have h2 : ('<' : Char) = c := by
      have := congrArg List.head? heq
      simpa [formatEmptySpec, reprDefault, strQuantity, List.cons_append] using this
    rcases h with hd | hd
    · rw [← h2] at hd
      exact absurd hd (by decide)
    · rw [hd] at h2
      exact absurd h2 (by decide)
  · rfl

/-- Witness for the amended C9 at a concrete value. -/
theorem format_empty_returns_repr_witness :
    (('2' : Char).isDigit = true ∨ ('2' : Char) = '-')
    ∧ (formatEmptySpec ['0', 'x', '1'] (canonPowers LengthD)
        ≠ strQuantity ('2' :: ['.', '0']) (canonPowers LengthD)
      ∧ strQuantity ('2' :: ['.', '0']) (canonPowers LengthD)
        = ('2' :: ['.', '0'])
          ++ ('[' :: (dimName (canonPowers LengthD) ++ [']']))) :=
  ⟨by decide, format_empty_returns_repr ['0', 'x', '1'] ['.', '0'] '2' _ (by decide)⟩

/-! ## Claim C10 -/

theorem vdim_wrap (e : PowerMap) (y : ℚ) : vdim (wrap e y) = e := by
  unfold wrap
  by_cases he : e.isEmpty = true
  · rw [if_pos he]
    unfold vdim
    exact (List.isEmpty_iff.1 he).symm
  · rw [if_neg he]
    rfl

/-- C10: the dimension algebra treats a non-dimension operand (a plain
number) as dimensionless: `D * x = D`, `x * D = D`, `D / x = D`, and
`x / D = D ** -1`; hence multiplying or dividing a dimensioned quantity by
a plain scalar preserves its dimension exactly, and dividing a plain scalar
by a quantity inverts its dimension. -/
theorem scalar_dimension_algebra (d : PowerMap) (x c : ℚ) :
    classMul (some d) none = some d
    ∧ classMul none (some d) = some d
    ∧ classDiv (some d) none = some d
    ∧ classDiv none (some d) = some (dimPow d (-1))
    ∧ vdim (vmul (.qty d x) (.raw c)) = vdim (.qty d x)
    ∧ vdim (vmul (.raw c) (.qty d x)) = vdim (.qty d x)
    ∧ vdim (vdiv (.qty d x) (.raw c)) = vdim (.qty d x)
    ∧ vdim (vdiv (.raw c) (.qty d x)) = dimPow d (-1) := by
  have hfm : fracMk (-1) 1 = -1 := by decide
  refine ⟨rfl, rfl, rfl, ?_, ?_, ?_, ?_, ?_⟩
  · show some (dimPow d (fracMk (-1) 1)) = some (dimPow d (-1))
    rw [hfm]
  · show vdim (wrap d (qmul x c)) = vdim (.qty d x)
    rw [vdim_wrap]
    rfl
  · show vdim (wrap d (qmul c x)) = vdim (.qty d x)
    rw [vdim_wrap]
    rfl
  · show vdim (wrap d (qdiv x c)) = vdim (.qty d x)
    rw [vdim_wrap]
    rfl
  · show vdim (wrap (dimPow d (fracMk (-1) 1)) (qdiv c x)) = dimPow d (-1)
    rw [vdim_wrap, hfm]

end SI

